import Mathlib

/-!
Shallow embedding of the AegisRAG multimodal retrieval core
(`core/vector_store/faiss_manager.py`, `core/vector_store/image_faiss_manager.py`,
`core/storage/metadata_store.py`, `core/pipeline/query_system.py`,
`core/llm/generator.py`, `core/schema/chunk.py`), together with theorems
settling the testable properties stated in the specification.

Numeric conventions: Python floats are modelled as exact rationals (ℚ).
The external `faiss` library primitives (`IndexFlatL2`, its `add`/`search`
asserts, `normalize_L2`) are embedded with their documented contracts; the
irrational L2 normalisation map is abstracted as an arbitrary
dimension-preserving map, since no claim depends on its numeric values.
-/

/-- A dense embedding vector, one rational per component (Python float list). -/
abbrev Vec : Type := List ℚ

/-- ASCII lower-casing of one character, modelling `str.lower()` on the
ASCII inputs exercised by the engine. -/
def lowerChar (c : Char) : Char :=
  if 'A' ≤ c ∧ c ≤ 'Z' then Char.ofNat (c.toNat + 32) else c

/-- Model of Python `s.lower()` (code-point-wise lower-casing). -/
def lowerStr (s : String) : String := ⟨s.data.map lowerChar⟩

/-- Whether the first list starts with the second (character match). -/
def startsWithChars : List Char → List Char → Bool
  | _, [] => true
  | [], _ :: _ => false
  | a :: as, b :: bs => a == b && startsWithChars as bs

/-- Whether `needle` occurs contiguously inside `hay`, at any offset. -/
def containsChars (hay needle : List Char) : Bool :=
  (List.range (hay.length + 1)).any fun i => startsWithChars (hay.drop i) needle

/-- Model of the Python substring test `needle in hay` performed
case-insensitively (both sides lower-cased first). -/
def strContainsSub (hay needle : String) : Bool :=
  containsChars (lowerStr hay).data (lowerStr needle).data

/-- Python whitespace characters relevant to `str.strip()`. -/
def wsChar (c : Char) : Bool := c == ' ' || c == '\t' || c == '\n' || c == '\r'

/-- Model of Python `s.strip()`: drop leading and trailing whitespace. -/
def pyStrip (s : String) : String :=
  ⟨((s.data.dropWhile wsChar).reverse.dropWhile wsChar).reverse⟩

/-- Model of Python slicing `s[:n]` (first `n` code points). -/
def pySlice (s : String) (n : ℕ) : String := ⟨s.data.take n⟩

/-- Stable insertion of `a` into a list: `a` goes before the first element
`b` with `le a b`. -/
def insertLE {α : Type} (le : α → α → Bool) (a : α) : List α → List α
  | [] => [a]
  | b :: bs => if le a b then a :: b :: bs else b :: insertLE le a bs

/-- Stable sort by the boolean relation `le`; extensionally the behaviour of
Python `sorted` (which is stable) for a total preorder key. -/
def sortLE {α : Type} (le : α → α → Bool) : List α → List α
  | [] => []
  | a :: as => insertLE le a (sortLE le as)

/-- `core/schema/chunk.py` — the atomic retrievable unit.  `page_number` and
`timestamp` are the two optional citation fields. -/
structure Chunk where
  chunk_id : String
  text : String
  source_type : String
  source_file : String
  page_number : Option ℤ
  timestamp : Option ℚ
deriving DecidableEq

/-- One search hit as returned by both manager `search` methods:
the dict `{"chunk_id": ..., "distance": ...}`. -/
structure SearchResult where
  chunk_id : String
  distance : ℚ
deriving DecidableEq

/-- The faiss `IndexFlatL2` object: a configured dimension `d` and the flat
list of stored vectors, in insertion order. -/
structure IndexFlatL2 where
  d : ℕ
  vecs : List Vec
deriving DecidableEq

/-- `index.ntotal` — the physical vector count. -/
def IndexFlatL2.ntotal (idx : IndexFlatL2) : ℕ := idx.vecs.length

/-- faiss `index.add(x)`: the Python wrapper asserts that `x` has shape
`(n, d)` with `d == self.d` before mutating, so a ragged or wrong-dimension
batch raises and leaves the index unchanged; otherwise the rows are
appended in order. -/
def IndexFlatL2.add (idx : IndexFlatL2) (xs : List Vec) : Except String IndexFlatL2 :=
  if xs.all fun v => v.length = idx.d then
    .ok { idx with vecs := idx.vecs ++ xs }
  else .error "faiss add: assert d == self.d failed"

/-- Squared L2 distance between two equal-length vectors (faiss `IndexFlatL2`
reports squared distances). -/
def sqL2 (a b : Vec) : ℚ := ((List.zip a b).map fun p => (p.1 - p.2) ^ 2).sum

/-- faiss `index.search(x, k)`: asserts the query dimension matches `self.d`,
then returns `k` `(ordinal, distance)` pairs — the stored vectors ranked by
ascending squared L2 distance (stable in insertion order), padded with
`(-1, 0)` entries when fewer than `k` vectors exist. -/
def IndexFlatL2.search (idx : IndexFlatL2) (q : Vec) (k : ℕ) :
    Except String (List (ℤ × ℚ)) :=
  if q.length = idx.d then
    let scored := idx.vecs.enum.map fun p => ((p.1 : ℤ), sqL2 q p.2)
    let ranked := sortLE (fun a b => a.2 ≤ b.2) scored
    let top := ranked.take k
    .ok (top ++ List.replicate (k - top.length) ((-1 : ℤ), (0 : ℚ)))
  else .error "faiss search: assert d == self.d failed"

/-- Abstraction of `faiss.normalize_L2`: the true map divides each row by its
(Lebesgue-irrational) L2 norm; every property proved here holds for an
arbitrary dimension-preserving row map, so only that contract is retained. -/
structure NormModel where
  f : Vec → Vec
  len_eq : ∀ v : Vec, (f v).length = v.length

/-- The identity instance of the normalisation contract, used to evaluate
the development on concrete inputs. -/
def idNorm : NormModel := ⟨id, fun _ => rfl⟩

/-- In-memory state of `FaissManager` (also the state shape of
`ImageFaissManager`): configured dimension, the faiss index, the ordinal
`chunk_ids` list and the mirrored membership set `_chunk_ids_set`. -/
structure FaissManager where
  embedding_dim : ℕ
  index : IndexFlatL2
  chunk_ids : List String
  chunk_ids_set : Finset String
deriving DecidableEq

/-- Fresh-construction state when no companion files exist:
`IndexFlatL2(embedding_dim)` plus empty id list and set. -/
def FaissManager.empty (dim : ℕ) : FaissManager :=
  ⟨dim, ⟨dim, []⟩, [], ∅⟩

/-- The duplicate-filtering loop of `FaissManager.add`: walk `chunks` with
index `i`, skipping any chunk whose id is in the membership set (checked
against the set as it was at call entry — the set is not updated during the
loop), otherwise collecting the chunk and `embeddings[i]`; `embeddings[i]`
out of range raises `IndexError` before any state mutation. -/
def dedupFilter (seen : Finset String) (embeddings : List Vec) :
    List Chunk → ℕ → Except String (List Chunk × List Vec)
  | [], _ => .ok ([], [])
  | c :: rest, i =>
    if c.chunk_id ∈ seen then dedupFilter seen embeddings rest (i + 1)
    else
      match embeddings[i]? with
      | none => .error "IndexError"
      | some e =>
        match dedupFilter seen embeddings rest (i + 1) with
        | .error msg => .error msg
        | .ok (cs, es) => .ok (c :: cs, e :: es)

/-- `FaissManager.add(embeddings, chunks)` — filter duplicates against
`_chunk_ids_set`, return 0 untouched if nothing new, else normalise the new
rows, append them to the index (faiss asserts the dimension), then append
the new ids to `chunk_ids` and the set, returning the number inserted. -/
def FaissManager.add (nrm : NormModel) (s : FaissManager)
    (embeddings : List Vec) (chunks : List Chunk) :
    Except String (FaissManager × ℕ) :=
  match dedupFilter s.chunk_ids_set embeddings chunks 0 with
  | .error msg => .error msg
  | .ok (newChunks, newEmbeddings) =>
    if newChunks.isEmpty then
      .ok (s, 0)
    else
      match s.index.add (newEmbeddings.map nrm.f) with
      | .error msg => .error msg
      | .ok idx =>
        .ok ({ s with
                index := idx,
                chunk_ids := s.chunk_ids ++ newChunks.map Chunk.chunk_id,
                chunk_ids_set := s.chunk_ids_set ∪ (newChunks.map Chunk.chunk_id).toFinset },
             newChunks.length)

/-- `FaissManager.search(query_embedding, top_k)` (text index): raise
`ValueError` when the query dimension differs from `index.d`, else normalise
the query, run the faiss search, and keep exactly the hits whose ordinal is
a valid position of `chunk_ids` — no distance filtering. -/
def FaissManager.search (nrm : NormModel) (s : FaissManager) (q : Vec) (k : ℕ) :
    Except String (List SearchResult) :=
  if q.length ≠ s.index.d then
    .error "Embedding dimension mismatch"
  else
    match s.index.search (nrm.f q) k with
    | .error msg => .error msg
    | .ok pairs =>
      .ok <| pairs.filterMap fun p =>
        if h : 0 ≤ p.1 ∧ p.1.toNat < s.chunk_ids.length then
          some ⟨s.chunk_ids.get ⟨p.1.toNat, h.2⟩, p.2⟩
        else none

/-- `ImageFaissManager.search(query_embedding, top_k)`: no explicit dimension
check of its own (the faiss assert inside `index.search` still fires),
normalise, search, and keep hits with a valid ordinal AND
`distance <= DISTANCE_THRESHOLD = 1.0`. -/
def ImageFaissManager.search (nrm : NormModel) (s : FaissManager) (q : Vec) (k : ℕ) :
    Except String (List SearchResult) :=
  match s.index.search (nrm.f q) k with
  | .error msg => .error msg
  | .ok pairs =>
    .ok <| pairs.filterMap fun p =>
      if h : (0 ≤ p.1 ∧ p.1.toNat < s.chunk_ids.length) ∧ p.2 ≤ 1 then
        some ⟨s.chunk_ids.get ⟨p.1.toNat, h.1.2⟩, p.2⟩
      else none

/-- The pair of companion files written by `save()`: the native index
serialisation and the pickled id list.  `faiss.write_index` / `pickle.dump`
and their readers are faithful serialisers, so the disk image is modelled as
the data itself. -/
structure DiskPair where
  index : IndexFlatL2
  ids : List String
deriving DecidableEq

/-- `FaissManager.save()` — write index and id list as one logical unit. -/
def FaissManager.save (s : FaissManager) : DiskPair := ⟨s.index, s.chunk_ids⟩

/-- Fresh construction of a manager when both companion files exist:
`_load()` reads the pair, then `__init__` rebuilds `_chunk_ids_set` from the
loaded id list. -/
def FaissManager.loadFrom (dim : ℕ) (disk : DiskPair) : FaissManager :=
  ⟨dim, disk.index, disk.ids, disk.ids.toFinset⟩

/-- The SQLite `chunks` table of `core/storage/metadata_store.py`: rows in
insertion order, with `chunk_id` as primary key. -/
abbrev Db : Type := List Chunk

/-- Whether a row with the given primary key already exists. -/
def MetadataStore.hasId (db : Db) (cid : String) : Bool :=
  db.any fun r => r.chunk_id == cid

/-- `MetadataStore.save_chunks(chunks)`: one transaction of per-row
`INSERT OR IGNORE`, counting only rows actually inserted; a duplicate id —
whether against the existing table or an earlier row of the same batch — is
skipped and not counted. -/
def MetadataStore.save_chunks : Db → List Chunk → Db × ℕ
  | db, [] => (db, 0)
  | db, c :: rest =>
    if MetadataStore.hasId db c.chunk_id then
      MetadataStore.save_chunks db rest
    else
      let p := MetadataStore.save_chunks (db ++ [c]) rest
      (p.1, p.2 + 1)

/-- `MetadataStore.get_chunk(chunk_id)`: point lookup by primary key. -/
def MetadataStore.get_chunk (db : Db) (cid : String) : Option Chunk :=
  db.find? fun r => r.chunk_id == cid

/-- The canonical not-found sentinel answer, shared literal of
`generator.py` and `query_system.py`. -/
def sentinel : String := "Information not found in knowledge base."

/-- One entry of the `contexts` list built by `QuerySystem._build_context`. -/
structure Ctx where
  text : String
  source_file : String
  page_number : Option ℤ
  timestamp : Option ℚ
deriving DecidableEq

/-- The prompt template of `OfflineLLM.generate_answer` (f-string with the
question and the truncated context text interpolated). -/
def promptOf (question context_text : String) : String :=
  "You are a helpful AI assistant.\n\nAnswer in the SAME language as the question.\nUse ONLY the provided context.\nDo NOT invent information.\nIf the answer is not found, reply exactly:\nInformation not found in knowledge base.\n\nQuestion:\n" ++ question ++ "\n\nContext:\n" ++ context_text ++ "\n\nAnswer:\n"

/-- `OfflineLLM.generate_answer(question, contexts, history)`: empty contexts
short-circuit to the sentinel before the model is touched; otherwise the
stripped context texts are concatenated, truncated to 1500 characters,
interpolated into the prompt, and the model's stripped completion is
returned (sentinel again if it came back empty).  The raw llama.cpp call is
the black-box parameter `llm`; `history` is accepted and unused, as in the
source. -/
def OfflineLLM.generate_answer (llm : String → String) (question : String)
    (contexts : List Ctx) (history : List String) : String :=
  if contexts.isEmpty then sentinel
  else
    let _ := history
    let context_text :=
      pySlice (contexts.foldl (fun acc c => acc ++ pyStrip c.text ++ "\n\n") "") 1500
    let answer := pyStrip (llm (promptOf question context_text))
    if answer.isEmpty then sentinel else answer

/-- The multimodal gate keyword set of `query_system.py`. -/
def MULTIMODAL_KEYWORDS : List String :=
  ["image", "picture", "photo", "screenshot", "video", "frame", "audio", "sound"]

/-- `any(k in question.lower() for k in MULTIMODAL_KEYWORDS)`. -/
def enableMultimodal (question : String) : Bool :=
  MULTIMODAL_KEYWORDS.any fun k => strContainsSub question k

/-- The `COMBINE & RANK` step of `QuerySystem.query`:
`sorted(text_results + image_results, key=lambda x: x["distance"])`. -/
def QuerySystem.rankCandidates (text_results image_results : List SearchResult) :
    List SearchResult :=
  sortLE (fun a b => a.distance ≤ b.distance) (text_results ++ image_results)

/-- The `EXTRACT TOP K` step: ids of the first `top_k` ranked candidates. -/
def QuerySystem.selectedChunkIds (text_results image_results : List SearchResult)
    (top_k : ℕ) : List String :=
  ((QuerySystem.rankCandidates text_results image_results).take top_k).map
    SearchResult.chunk_id

/-- `QuerySystem._fetch_chunks_from_db`: resolve each id through the store,
silently dropping unresolved ids. -/
def fetchChunksFromDb (db : Db) (ids : List String) : List Chunk :=
  ids.filterMap (MetadataStore.get_chunk db)

/-- `QuerySystem._build_context`: per chunk, the first 400 characters of the
text plus citation fields. -/
def buildContext (chunks : List Chunk) : List Ctx :=
  chunks.map fun c => ⟨pySlice c.text 400, c.source_file, c.page_number, c.timestamp⟩

/-- Python `round` (banker's rounding) of a rational to an integer. -/
def roundHalfEven (q : ℚ) : ℤ :=
  if q - ⌊q⌋ < 1 / 2 then ⌊q⌋
  else if q - ⌊q⌋ > 1 / 2 then ⌊q⌋ + 1
  else if ⌊q⌋ % 2 = 0 then ⌊q⌋ else ⌊q⌋ + 1

/-- Python `round(x, 2)` — two decimal places, ties to even. -/
def pyRound2 (q : ℚ) : ℚ := (roundHalfEven (q * 100) : ℚ) / 100

/-- The `CONFIDENCE` step of `QuerySystem.query`:
`avg = sum(distances)/len(distances)`, `similarity = max(0, 1 - avg/2)`,
`confidence = round(similarity * 100, 2)`. -/
def confidenceOf (distances : List ℚ) : ℚ :=
  pyRound2 (max 0 (1 - distances.sum / distances.length / 2) * 100)

/-- One element of the response `sources` list. -/
structure Source where
  source_type : String
  source_file : String
  score : ℚ
  page_number : Option ℤ
  timestamp : Option ℚ
deriving DecidableEq

/-- The source entry built from one chunk with the query-level confidence. -/
def mkSource (confidence : ℚ) (c : Chunk) : Source :=
  ⟨c.source_type, c.source_file, confidence, c.page_number, c.timestamp⟩

/-- The loop body of the `DEDUPLICATE SOURCES` step, with the accumulated
insertion-ordered dict made explicit. -/
def dedupSourcesAux (confidence : ℚ) (acc : List Source) :
    List Chunk → List Source
  | [] => acc
  | c :: rest =>
    if acc.any fun s => s.source_file == c.source_file then
      dedupSourcesAux confidence acc rest
    else
      dedupSourcesAux confidence (acc ++ [mkSource confidence c]) rest

/-- The `DEDUPLICATE SOURCES` step: an insertion-ordered dict keyed by
`source_file`, first occurrence wins, every value carrying the same
query-level confidence. -/
def dedupSources (chunks : List Chunk) (confidence : ℚ) : List Source :=
  dedupSourcesAux confidence [] chunks

/-- The response dict of `QuerySystem.query`. -/
structure QueryOutput where
  answer : String
  sources : List Source
  confidence : ℚ
deriving DecidableEq

/-- `QuerySystem.query(question, top_k, history)`.  External collaborators
appear as parameters: the two embedders (`textEmbed`, `clipEmbed`), the two
normalisation maps, and the raw generation call `llm`.  Mirrors the source
control flow: text search, gated image search, combine-and-sort by distance,
empty-result fallback, top-k extraction, metadata fetch, context build,
generation, confidence, source dedup.  A zero-length distance list (only
possible with `top_k = 0`) is Python's `ZeroDivisionError`. -/
def QuerySystem.query (nrm nrmImg : NormModel) (textEmbed clipEmbed : String → Vec)
    (llm : String → String) (st si : FaissManager) (db : Db)
    (question : String) (top_k : ℕ) (history : List String) :
    Except String QueryOutput :=
  match FaissManager.search nrm st (textEmbed question) top_k with
  | .error msg => .error msg
  | .ok text_results =>
    match
      (if enableMultimodal question ∧ 0 < si.chunk_ids.length then
        ImageFaissManager.search nrmImg si (clipEmbed question) top_k
      else .ok []) with
    | .error msg => .error msg
    | .ok image_results =>
      let combined := QuerySystem.rankCandidates text_results image_results
      if combined.isEmpty then
        .ok ⟨sentinel, [], 0⟩
      else
        let chunk_ids := (combined.take top_k).map SearchResult.chunk_id
        let distances := (combined.take top_k).map SearchResult.distance
        let chunks := fetchChunksFromDb db chunk_ids
        let contexts := buildContext chunks
        let answer := OfflineLLM.generate_answer llm question contexts history
        if distances.length = 0 then .error "ZeroDivisionError"
        else
          let confidence := confidenceOf distances
          .ok ⟨answer, dedupSources chunks confidence, confidence⟩

/-- Inserting into a list is a permutation of consing. -/
theorem insertLE_perm {α : Type} (le : α → α → Bool) (a : α) (l : List α) :
    (insertLE le a l).Perm (a :: l) := by
  induction l with
  | nil => simp [insertLE]
  | cons b bs ih =>
    unfold insertLE
    split
    · exact List.Perm.refl _
    · exact (ih.cons b).trans (List.Perm.swap a b bs)

/-- The stable sort is a permutation of its input. -/
theorem sortLE_perm {α : Type} (le : α → α → Bool) (l : List α) :
    (sortLE le l).Perm l := by
  induction l with
  | nil => exact List.Perm.refl _
  | cons a as ih => exact (insertLE_perm le a _).trans (ih.cons a)

/-- Inserting into a sorted list keeps it sorted, given a transitive total
boolean relation. -/
theorem insertLE_pairwise {α : Type} {le : α → α → Bool}
    (htrans : ∀ a b c, le a b = true → le b c = true → le a c = true)
    (htot : ∀ a b, le a b = true ∨ le b a = true) (a : α) {l : List α}
    (hl : l.Pairwise fun x y => le x y = true) :
    (insertLE le a l).Pairwise fun x y => le x y = true := by
  induction l with
  | nil => simp [insertLE]
  | cons b bs ih =>
    rcases List.pairwise_cons.mp hl with ⟨hb, hbs⟩
    unfold insertLE
    split_ifs with hab
    · refine List.pairwise_cons.mpr ⟨?_, hl⟩
      intro x hx
      rcases List.mem_cons.mp hx with rfl | hx
      · exact hab
      · exact htrans a b x hab (hb x hx)
    · refine List.pairwise_cons.mpr ⟨?_, ih hbs⟩
      intro x hx
      have hx' := (insertLE_perm le a bs).mem_iff.mp hx
      rcases List.mem_cons.mp hx' with rfl | hx'
      · rcases htot x b with h | h
        · exact absurd h hab
        · exact h
      · exact hb x hx'

/-- The stable sort output is pairwise ordered, given a transitive total
boolean relation. -/
theorem sortLE_pairwise {α : Type} {le : α → α → Bool}
    (htrans : ∀ a b c, le a b = true → le b c = true → le a c = true)
    (htot : ∀ a b, le a b = true ∨ le b a = true) (l : List α) :
    (sortLE le l).Pairwise fun x y => le x y = true := by
  induction l with
  | nil => simp [sortLE]
  | cons a as ih => exact insertLE_pairwise htrans htot a ih

/-- Banker's rounding lands on the floor or the floor plus one. -/
theorem roundHalfEven_mem (q : ℚ) :
    roundHalfEven q = ⌊q⌋ ∨ roundHalfEven q = ⌊q⌋ + 1 := by
  unfold roundHalfEven
  split_ifs <;> simp

/-- Banker's rounding of a nonnegative rational is nonnegative. -/
theorem roundHalfEven_nonneg {q : ℚ} (h : 0 ≤ q) : 0 ≤ roundHalfEven q := by
  have hf : (0 : ℤ) ≤ ⌊q⌋ := Int.le_floor.mpr (by exact_mod_cast h)
  rcases roundHalfEven_mem q with h1 | h1 <;> omega

/-- Banker's rounding never exceeds an integer upper bound of the input. -/
theorem roundHalfEven_le {q : ℚ} {n : ℤ} (h : q ≤ (n : ℚ)) :
    roundHalfEven q ≤ n := by
  have hf : ⌊q⌋ ≤ n := by
    have := Int.floor_le_floor h
    simpa using this
  rcases lt_or_eq_of_le hf with hlt | heq
  · rcases roundHalfEven_mem q with h1 | h1 <;> omega
  · have hq : q - (⌊q⌋ : ℚ) < 1 / 2 := by
      have : q ≤ (⌊q⌋ : ℚ) := by rw [heq]; exact h
      linarith
    unfold roundHalfEven
    rw [if_pos hq]
    exact hf

/-- C8 helper: the confidence value lies in `[0, 100]` for a non-empty list
of nonnegative distances. -/
theorem confidenceOf_bounds (ds : List ℚ) (hne : ds ≠ [])
    (hnn : ∀ d ∈ ds, 0 ≤ d) :
    0 ≤ confidenceOf ds ∧ confidenceOf ds ≤ 100 := by
  have hsum : 0 ≤ ds.sum := List.sum_nonneg hnn
  have hlen : (0 : ℚ) < ds.length := by
    have := List.length_pos.mpr hne
    exact_mod_cast this
  have havg : 0 ≤ ds.sum / ds.length := div_nonneg hsum hlen.le
  have hsim0 : 0 ≤ max 0 (1 - ds.sum / ds.length / 2) := le_max_left _ _
  have hsim1 : max 0 (1 - ds.sum / ds.length / 2) ≤ 1 :=
    max_le (by norm_num) (by linarith)
  unfold confidenceOf pyRound2
  constructor
  · apply div_nonneg _ (by norm_num)
    exact_mod_cast roundHalfEven_nonneg (by positivity)
  · rw [div_le_iff₀ (by norm_num : (0 : ℚ) < 100)]
    have hub : max 0 (1 - ds.sum / ds.length / 2) * 100 * 100 ≤ ((10000 : ℤ) : ℚ) := by
      push_cast
      nlinarith
    have := roundHalfEven_le hub
    exact_mod_cast this

/-- C8: for a non-empty list of nonnegative top-k distances, the confidence
computed by `QuerySystem.query` equals
`round(max(0, 1 - avg_distance/2) * 100, 2)` with `avg_distance` the mean of
the distances, and lies between 0 and 100. -/
theorem C8_confidence_formula_and_bounds (ds : List ℚ) (hne : ds ≠ [])
    (hnn : ∀ d ∈ ds, 0 ≤ d) :
    confidenceOf ds = pyRound2 (max 0 (1 - ds.sum / ds.length / 2) * 100) ∧
    0 ≤ confidenceOf ds ∧ confidenceOf ds ≤ 100 :=
  ⟨rfl, confidenceOf_bounds ds hne hnn⟩

/-- C8 witness: the bounds evaluated on the concrete distance list `[1]`. -/
theorem C8_confidence_witness :
    ([(1 : ℚ)] ≠ [] ∧ ∀ d ∈ [(1 : ℚ)], 0 ≤ d) ∧
    (0 ≤ confidenceOf [(1 : ℚ)] ∧ confidenceOf [(1 : ℚ)] ≤ 100) :=
  ⟨⟨by simp, by norm_num⟩,
   (C8_confidence_formula_and_bounds [(1 : ℚ)] (by simp) (by norm_num)).2⟩

/-- If every chunk id of the batch is already in the membership set, the
filtering loop of `add` rejects everything and never touches `embeddings`. -/
theorem dedupFilter_all_seen {seen : Finset String} {embeddings : List Vec}
    (chunks : List Chunk) (i : ℕ) (h : ∀ c ∈ chunks, c.chunk_id ∈ seen) :
    dedupFilter seen embeddings chunks i = .ok ([], []) := by
  induction chunks generalizing i with
  | nil => rfl
  | cons c rest ih =>
    have hc : c.chunk_id ∈ seen := h c (List.mem_cons_self c rest)
    simp only [dedupFilter, if_pos hc]
    exact ih (i + 1) fun c' hc' => h c' (List.mem_cons_of_mem _ hc')

/-- Every chunk of the batch is either already seen or among the collected
new chunks of a successful filtering pass. -/
theorem dedupFilter_covers {seen : Finset String} {embeddings : List Vec}
    {chunks : List Chunk} {i : ℕ} {cs : List Chunk} {es : List Vec}
    (h : dedupFilter seen embeddings chunks i = .ok (cs, es)) :
    ∀ c ∈ chunks, c.chunk_id ∈ seen ∨ c ∈ cs := by
  induction chunks generalizing i cs es with
  | nil => simp
  | cons c rest ih =>
    intro c' hc'
    by_cases hcs : c.chunk_id ∈ seen
    · simp only [dedupFilter, if_pos hcs] at h
      rcases List.mem_cons.mp hc' with rfl | hmem
      · exact .inl hcs
      · exact ih h c' hmem
    · simp only [dedupFilter, if_neg hcs] at h
      cases he : embeddings[i]? with
      | none => rw [he] at h; cases h
      | some e =>
        rw [he] at h
        cases hd : dedupFilter seen embeddings rest (i + 1) with
        | error msg => rw [hd] at h; cases h
        | ok p =>
          obtain ⟨cs', es'⟩ := p
          rw [hd] at h
          simp only [Except.ok.injEq, Prod.mk.injEq] at h
          obtain ⟨hcs', _⟩ := h
          subst hcs'
          rcases List.mem_cons.mp hc' with rfl | hmem
          · exact .inr (List.mem_cons_self c' cs')
          · rcases ih hd c' hmem with hseen | hnew
            · exact .inl hseen
            · exact .inr (List.mem_cons_of_mem _ hnew)

/-- After a successful `add`, every chunk id of the batch is in the
membership set of the resulting state. -/
theorem add_mem_chunk_ids_set {nrm : NormModel} {s : FaissManager}
    {embeddings : List Vec} {chunks : List Chunk} {s₁ : FaissManager} {n : ℕ}
    (h : FaissManager.add nrm s embeddings chunks = .ok (s₁, n)) :
    ∀ c ∈ chunks, c.chunk_id ∈ s₁.chunk_ids_set := by
  unfold FaissManager.add at h
  cases hd : dedupFilter s.chunk_ids_set embeddings chunks 0 with
  | error msg => simp [hd] at h
  | ok p =>
    obtain ⟨cs, es⟩ := p
    simp only [hd] at h
    by_cases hempty : cs.isEmpty
    · rw [if_pos hempty] at h
      simp only [Except.ok.injEq, Prod.mk.injEq] at h
      obtain ⟨hs, _⟩ := h
      intro c hc
      rcases dedupFilter_covers hd c hc with hseen | hmem
      · rw [← hs]; exact hseen
      · rw [List.isEmpty_iff] at hempty
        subst hempty
        cases hmem
    · rw [if_neg hempty] at h
      cases hia : s.index.add (es.map nrm.f) with
      | error msg => simp [hia] at h
      | ok idx =>
        simp only [hia, Except.ok.injEq, Prod.mk.injEq] at h
        obtain ⟨hs, _⟩ := h
        intro c hc
        rcases dedupFilter_covers hd c hc with hseen | hmem
        · rw [← hs]; exact Finset.mem_union_left _ hseen
        · rw [← hs]
          exact Finset.mem_union_right _
            (List.mem_toFinset.mpr (List.mem_map_of_mem Chunk.chunk_id hmem))

/-- Adding a row never removes an existing primary key. -/
theorem hasId_append {db : Db} {cid : String}
    (h : MetadataStore.hasId db cid = true) (l : Db) :
    MetadataStore.hasId (db ++ l) cid = true := by
  unfold MetadataStore.hasId at *
  rw [List.any_append, h, Bool.true_or]

/-- `save_chunks` only grows the key set. -/
theorem save_chunks_keeps {db : Db} {cid : String} (chunks : List Chunk)
    (h : MetadataStore.hasId db cid = true) :
    MetadataStore.hasId (MetadataStore.save_chunks db chunks).1 cid = true := by
  induction chunks generalizing db with
  | nil => exact h
  | cons c rest ih =>
    unfold MetadataStore.save_chunks
    split_ifs with hdup
    · exact ih h
    · exact ih (hasId_append h [c])

/-- After `save_chunks`, every chunk id of the batch is present. -/
theorem save_chunks_mem (db : Db) (chunks : List Chunk) :
    ∀ c ∈ chunks,
      MetadataStore.hasId (MetadataStore.save_chunks db chunks).1 c.chunk_id = true := by
  induction chunks generalizing db with
  | nil => simp
  | cons c rest ih =>
    intro c' hc'
    unfold MetadataStore.save_chunks
    rcases List.mem_cons.mp hc' with rfl | hmem
    · split_ifs with hdup
      · exact save_chunks_keeps rest hdup
      · refine save_chunks_keeps rest ?_
        unfold MetadataStore.hasId
        rw [List.any_append]
        simp
    · split_ifs with hdup
      · exact ih db c' hmem
      · exact ih (db ++ [c]) c' hmem

/-- `save_chunks` over a batch whose ids are all present already is a no-op
returning 0. -/
theorem save_chunks_all_dup {db : Db} {chunks : List Chunk}
    (h : ∀ c ∈ chunks, MetadataStore.hasId db c.chunk_id = true) :
    MetadataStore.save_chunks db chunks = (db, 0) := by
  induction chunks with
  | nil => rfl
  | cons c rest ih =>
    unfold MetadataStore.save_chunks
    rw [if_pos (h c (List.mem_cons_self c rest))]
    exact ih fun c' hc' => h c' (List.mem_cons_of_mem _ hc')

/-- C1: idempotent re-ingestion.  If a first `FaissManager.add` of a batch
succeeds producing state `s₁`, the second `add` of the identical batch
returns inserted-count 0 and leaves the state — hence `index.ntotal` and
`chunk_ids.length` — exactly `s₁`; and a second `save_chunks` of the same
chunk batch against the store state produced by the first returns
inserted-count 0 and leaves the table unchanged. -/
theorem C1_idempotent_reingestion (nrm : NormModel) (s : FaissManager)
    (embeddings : List Vec) (chunks : List Chunk) (s₁ : FaissManager) (n : ℕ)
    (db : Db) (h : FaissManager.add nrm s embeddings chunks = .ok (s₁, n)) :
    FaissManager.add nrm s₁ embeddings chunks = .ok (s₁, 0) ∧
    MetadataStore.save_chunks (MetadataStore.save_chunks db chunks).1 chunks =
      ((MetadataStore.save_chunks db chunks).1, 0) := by
  constructor
  · unfold FaissManager.add
    rw [dedupFilter_all_seen chunks 0 (add_mem_chunk_ids_set h)]
    rfl
  · exact save_chunks_all_dup (save_chunks_mem db chunks)

/-- A concrete deterministic chunk used to evaluate the theorems. -/
def wChunk1 : Chunk := ⟨"a.pdf-p0-c0", "alpha text", "pdf", "a.pdf", some 0, none⟩

/-- The manager state after ingesting `wChunk1` into an empty 1-dimensional
index. -/
def wState1 : FaissManager :=
  ⟨1, ⟨1, [[(1 : ℚ)]]⟩, ["a.pdf-p0-c0"], {"a.pdf-p0-c0"}⟩

/-- C1 witness: a concrete first ingestion succeeds with count 1 and the
second ingestion of the same batch is a counted-zero no-op, for both the
vector index and the metadata store. -/
theorem C1_idempotent_witness :
    FaissManager.add idNorm (FaissManager.empty 1) [[(1 : ℚ)]] [wChunk1] =
      .ok (wState1, 1) ∧
    (FaissManager.add idNorm wState1 [[(1 : ℚ)]] [wChunk1] = .ok (wState1, 0) ∧
     MetadataStore.save_chunks (MetadataStore.save_chunks [] [wChunk1]).1 [wChunk1] =
       ((MetadataStore.save_chunks [] [wChunk1]).1, 0)) :=
  ⟨rfl,
   C1_idempotent_reingestion idNorm (FaissManager.empty 1) [[(1 : ℚ)]] [wChunk1]
     wState1 1 [] rfl⟩

/-- A successful filtering pass collects as many chunks as embeddings. -/
theorem dedupFilter_length {seen : Finset String} {embeddings : List Vec}
    {chunks : List Chunk} {i : ℕ} {cs : List Chunk} {es : List Vec}
    (h : dedupFilter seen embeddings chunks i = .ok (cs, es)) :
    cs.length = es.length := by
  induction chunks generalizing i cs es with
  | nil =>
    simp only [dedupFilter, Except.ok.injEq, Prod.mk.injEq] at h
    obtain ⟨h1, h2⟩ := h
    rw [← h1, ← h2]
    rfl
  | cons c rest ih =>
    by_cases hcs : c.chunk_id ∈ seen
    · simp only [dedupFilter, if_pos hcs] at h
      exact ih h
    · simp only [dedupFilter, if_neg hcs] at h
      cases he : embeddings[i]? with
      | none => rw [he] at h; cases h
      | some e =>
        rw [he] at h
        cases hd : dedupFilter seen embeddings rest (i + 1) with
        | error msg => rw [hd] at h; cases h
        | ok p =>
          obtain ⟨cs', es'⟩ := p
          rw [hd] at h
          simp only [Except.ok.injEq, Prod.mk.injEq] at h
          obtain ⟨h1, h2⟩ := h
          rw [← h1, ← h2]
          simp [ih hd]

/-- The in-memory alignment invariant of one manager instance: the id list
matches the physical vector count and the membership set mirrors the list. -/
def Aligned (s : FaissManager) : Prop :=
  s.chunk_ids.length = s.index.ntotal ∧ s.chunk_ids_set = s.chunk_ids.toFinset

/-- A successful `add` preserves the alignment invariant. -/
theorem add_preserves_aligned {nrm : NormModel} {s : FaissManager}
    {embeddings : List Vec} {chunks : List Chunk} {s₁ : FaissManager} {n : ℕ}
    (hal : Aligned s)
    (h : FaissManager.add nrm s embeddings chunks = .ok (s₁, n)) :
    Aligned s₁ := by
  unfold FaissManager.add at h
  cases hd : dedupFilter s.chunk_ids_set embeddings chunks 0 with
  | error msg => simp [hd] at h
  | ok p =>
    obtain ⟨cs, es⟩ := p
    simp only [hd] at h
    by_cases hempty : cs.isEmpty
    · rw [if_pos hempty] at h
      simp only [Except.ok.injEq, Prod.mk.injEq] at h
      obtain ⟨hs, _⟩ := h
      rw [← hs]
      exact hal
    · rw [if_neg hempty] at h
      cases hia : s.index.add (es.map nrm.f) with
      | error msg => simp [hia] at h
      | ok idx =>
        simp only [hia, Except.ok.injEq, Prod.mk.injEq] at h
        obtain ⟨hs, _⟩ := h
        unfold IndexFlatL2.add at hia
        split_ifs at hia with hdim
        · simp only [Except.ok.injEq] at hia
          rw [← hs, ← hia]
          constructor
          · simp only [IndexFlatL2.ntotal, List.length_append, List.length_map]
            rw [hal.1, dedupFilter_length hd]
            simp [IndexFlatL2.ntotal]
          · simp only [List.toFinset_append]
            rw [hal.2]

/-- The world of one manager: in-memory state plus the optional on-disk
companion-file pair (none before the first `save`). -/
structure World where
  mgr : FaissManager
  disk : Option DiskPair

/-- States reachable by any sequence of `add`, `save` and (fresh-process)
`load` operations starting from an empty index and no disk files.  A failed
`add` leaves the state untouched, so only successful `add`s move it. -/
inductive ReachableW : World → Prop
  | init (dim : ℕ) : ReachableW ⟨FaissManager.empty dim, none⟩
  | stepAdd {w : World} {nrm : NormModel} {embeddings : List Vec}
      {chunks : List Chunk} {s' : FaissManager} {n : ℕ} (hw : ReachableW w)
      (h : FaissManager.add nrm w.mgr embeddings chunks = .ok (s', n)) :
      ReachableW ⟨s', w.disk⟩
  | stepSave {w : World} (hw : ReachableW w) :
      ReachableW ⟨w.mgr, some (FaissManager.save w.mgr)⟩
  | stepLoad {w : World} {dsk : DiskPair} (dim : ℕ) (hw : ReachableW w)
      (hdisk : w.disk = some dsk) :
      ReachableW ⟨FaissManager.loadFrom dim dsk, w.disk⟩

/-- The reachability invariant, strengthened with the disk-snapshot
alignment needed for the `load` step. -/
theorem reachable_inv {w : World} (hw : ReachableW w) :
    Aligned w.mgr ∧ ∀ dsk, w.disk = some dsk → dsk.ids.length = dsk.index.ntotal := by
  induction hw with
  | init dim => exact ⟨⟨rfl, rfl⟩, by simp⟩
  | stepAdd hw h ih => exact ⟨add_preserves_aligned ih.1 h, ih.2⟩
  | stepSave hw ih =>
    refine ⟨ih.1, ?_⟩
    intro dsk hdsk
    simp only [Option.some.injEq] at hdsk
    rw [← hdsk]
    exact ih.1.1
  | stepLoad dim hw hdisk ih =>
    refine ⟨⟨ih.2 _ hdisk, rfl⟩, ih.2⟩

/-- C2: in every manager state reachable by any sequence of `add`, `save`
and `load` from an empty index, `len(chunk_ids) == index.ntotal` and the
membership set `_chunk_ids_set` equals the set of elements of `chunk_ids`. -/
theorem C2_alignment_invariant (w : World) (hw : ReachableW w) :
    w.mgr.chunk_ids.length = w.mgr.index.ntotal ∧
    w.mgr.chunk_ids_set = w.mgr.chunk_ids.toFinset :=
  (reachable_inv hw).1

/-- C2 witness: the invariant evaluated on the concrete state reached by one
successful `add` on a fresh manager. -/
theorem C2_alignment_witness :
    ReachableW ⟨wState1, none⟩ ∧
    wState1.chunk_ids.length = wState1.index.ntotal ∧
    wState1.chunk_ids_set = wState1.chunk_ids.toFinset := by
  have hadd : FaissManager.add idNorm (FaissManager.empty 1) [[(1 : ℚ)]] [wChunk1] =
      Except.ok (wState1, 1) := rfl
  have hr : ReachableW ⟨wState1, none⟩ :=
    ReachableW.stepAdd (w := ⟨FaissManager.empty 1, none⟩) (ReachableW.init 1) hadd
  exact ⟨hr, C2_alignment_invariant ⟨wState1, none⟩ hr⟩

/-- C3: round-trip persistence.  `save()` followed by a fresh manager
construction that loads the two companion files reproduces an index with the
same `ntotal`, an identical `chunk_ids` list (content and order), and
identical `search` results for any query vector of the configured
dimension. -/
theorem C3_round_trip_persistence (s : FaissManager) (dim : ℕ) (nrm : NormModel)
    (q : Vec) (k : ℕ) (hq : q.length = s.index.d) :
    (FaissManager.loadFrom dim (FaissManager.save s)).index.ntotal = s.index.ntotal ∧
    (FaissManager.loadFrom dim (FaissManager.save s)).chunk_ids = s.chunk_ids ∧
    FaissManager.search nrm (FaissManager.loadFrom dim (FaissManager.save s)) q k =
      FaissManager.search nrm s q k :=
  ⟨rfl, rfl, rfl⟩

/-- C3 witness: the round trip evaluated on the concrete one-vector state
and a well-dimensioned query. -/
theorem C3_round_trip_witness :
    ([(0 : ℚ)] : Vec).length = wState1.index.d ∧
    FaissManager.search idNorm
        (FaissManager.loadFrom 1 (FaissManager.save wState1)) [(0 : ℚ)] 5 =
      FaissManager.search idNorm wState1 [(0 : ℚ)] 5 :=
  ⟨rfl,
   (C3_round_trip_persistence wState1 1 idNorm [(0 : ℚ)] 5 rfl).2.2⟩

/-- C9: dimension enforcement on `search`.  A query whose length differs
from the configured index dimension makes the text manager raise its
explicit `ValueError` and makes the image manager fail through the faiss
assert (the image manager has no check of its own but never silently
truncates, pads, or returns results). -/
theorem C9_dimension_enforcement (nrm : NormModel) (s : FaissManager) (q : Vec)
    (k : ℕ) (hq : q.length ≠ s.index.d) :
    FaissManager.search nrm s q k = .error "Embedding dimension mismatch" ∧
    ImageFaissManager.search nrm s q k =
      .error "faiss search: assert d == self.d failed" := by
  constructor
  · unfold FaissManager.search
    rw [if_pos hq]
  · have hf : ¬(nrm.f q).length = s.index.d := by
      rw [nrm.len_eq]
      exact hq
    unfold ImageFaissManager.search IndexFlatL2.search
    rw [if_neg hf]

/-- C9 witness: a 1-component query against a 2-dimensional index fails on
both managers. -/
theorem C9_dimension_witness :
    ([(1 : ℚ)] : Vec).length ≠ (FaissManager.empty 2).index.d ∧
    FaissManager.search idNorm (FaissManager.empty 2) [(1 : ℚ)] 5 =
      .error "Embedding dimension mismatch" ∧
    ImageFaissManager.search idNorm (FaissManager.empty 2) [(1 : ℚ)] 5 =
      .error "faiss search: assert d == self.d failed" := by
  have hq : ([(1 : ℚ)] : Vec).length ≠ (FaissManager.empty 2).index.d := by decide
  exact ⟨hq,
    (C9_dimension_enforcement idNorm (FaissManager.empty 2) [(1 : ℚ)] 5 hq).1,
    (C9_dimension_enforcement idNorm (FaissManager.empty 2) [(1 : ℚ)] 5 hq).2⟩

/-- A concrete 2-dimensional image-manager state holding one vector at
squared distance 2 from the query `[1, 0]`. -/
def wImgFar : FaissManager := ⟨2, ⟨2, [[0, 1]]⟩, ["img-far"], {"img-far"}⟩

/-- A concrete 2-dimensional image-manager state holding one vector at
distance 0 from the query `[1, 0]`. -/
def wImgNear : FaissManager := ⟨2, ⟨2, [[1, 0]]⟩, ["img-near"], {"img-near"}⟩

/-- C10: the image manager's hard distance threshold.  Every result it
returns has distance at most `1.0`; on a concrete non-empty index whose only
candidate sits at distance 2 the image result list is empty, while the text
manager — which applies no threshold — returns that same candidate with its
distance `2 > 1`. -/
theorem C10_image_threshold :
    (∀ (nrm : NormModel) (s : FaissManager) (q : Vec) (k : ℕ)
        (res : List SearchResult),
      ImageFaissManager.search nrm s q k = .ok res → ∀ r ∈ res, r.distance ≤ 1) ∧
    (0 < wImgFar.index.ntotal ∧
      ImageFaissManager.search idNorm wImgFar [(1 : ℚ), 0] 5 = .ok []) ∧
    FaissManager.search idNorm wImgFar [(1 : ℚ), 0] 5 =
      .ok [⟨"img-far", 2⟩] ∧ (1 : ℚ) < 2 := by
  refine ⟨?_, ⟨?_, ?_⟩, ?_, by norm_num⟩
  · intro nrm s q k res h r hr
    unfold ImageFaissManager.search at h
    cases hp : s.index.search (nrm.f q) k with
    | error msg => rw [hp] at h; cases h
    | ok pairs =>
      simp only [hp, Except.ok.injEq] at h
      rw [← h] at hr
      obtain ⟨p, hpm, hfp⟩ := List.mem_filterMap.mp hr
      by_cases hc : (0 ≤ p.1 ∧ p.1.toNat < s.chunk_ids.length) ∧ p.2 ≤ 1
      · rw [dif_pos hc] at hfp
        simp only [Option.some.injEq] at hfp
        rw [← hfp]
        exact hc.2
      · rw [dif_neg hc] at hfp
        cases hfp
  · norm_num [wImgFar, IndexFlatL2.ntotal]
  · norm_num [ImageFaissManager.search, IndexFlatL2.search, sqL2, sortLE,
      insertLE, List.enum, idNorm, wImgFar]
  · norm_num [FaissManager.search, IndexFlatL2.search, sqL2, sortLE,
      insertLE, List.enum, idNorm, wImgFar]
    decide

/-- C10 witness: the universal threshold bound applied to a concrete image
search that returns one result at distance 0. -/
theorem C10_image_threshold_witness :
    ImageFaissManager.search idNorm wImgNear [(1 : ℚ), 0] 5 =
      .ok [⟨"img-near", 0⟩] ∧
    ∀ r ∈ [(⟨"img-near", 0⟩ : SearchResult)], r.distance ≤ 1 := by
  have hev : ImageFaissManager.search idNorm wImgNear [(1 : ℚ), 0] 5 =
      .ok [⟨"img-near", 0⟩] := by
    norm_num [ImageFaissManager.search, IndexFlatL2.search, sqL2, sortLE,
      insertLE, List.enum, idNorm, wImgNear]
    decide
  exact ⟨hev,
    fun r hr => C10_image_threshold.1 idNorm wImgNear [(1 : ℚ), 0] 5 _ hev r hr⟩

/-- With both searches returning empty result lists, `query` returns the
sentinel fallback — independently of the generation parameter, which is
never consulted on this path. -/
theorem query_of_empty_results (nrm nrmImg : NormModel)
    (textEmbed clipEmbed : String → Vec) (llm : String → String)
    (st si : FaissManager) (db : Db) (question : String) (top_k : ℕ)
    (history : List String)
    (ht : FaissManager.search nrm st (textEmbed question) top_k = .ok [])
    (hi : enableMultimodal question = true ∧ 0 < si.chunk_ids.length →
      ImageFaissManager.search nrmImg si (clipEmbed question) top_k = .ok []) :
    QuerySystem.query nrm nrmImg textEmbed clipEmbed llm st si db question top_k
      history = .ok ⟨sentinel, [], 0⟩ := by
  unfold QuerySystem.query
  simp only [ht]
  by_cases hg : enableMultimodal question = true ∧ 0 < si.chunk_ids.length
  · simp only [if_pos hg, hi hg]
    rfl
  · simp only [if_neg hg]
    rfl

/-- `OfflineLLM.generate_answer` with an empty context list is the sentinel,
for every model function. -/
theorem generate_answer_nil (llm : String → String) (question : String)
    (history : List String) :
    OfflineLLM.generate_answer llm question [] history = sentinel := rfl

/-- C6: empty-result fallback without generation.  If the text search yields
no results and the (gated) image search yields none either, `query` returns
exactly the sentinel with confidence 0 and no sources, with a value
independent of the generation parameter — it is never invoked; and the
generation adapter itself maps an empty context list to the sentinel without
touching its model function. -/
theorem C6_empty_result_fallback (nrm nrmImg : NormModel)
    (textEmbed clipEmbed : String → Vec) (st si : FaissManager) (db : Db)
    (question : String) (top_k : ℕ)
    (ht : FaissManager.search nrm st (textEmbed question) top_k = .ok [])
    (hi : enableMultimodal question = true ∧ 0 < si.chunk_ids.length →
      ImageFaissManager.search nrmImg si (clipEmbed question) top_k = .ok []) :
    (∀ (llm : String → String) (history : List String),
      QuerySystem.query nrm nrmImg textEmbed clipEmbed llm st si db question
        top_k history = .ok ⟨sentinel, [], 0⟩) ∧
    ∀ (llm : String → String) (q : String) (history : List String),
      OfflineLLM.generate_answer llm q [] history = sentinel :=
  ⟨fun llm history =>
    query_of_empty_results nrm nrmImg textEmbed clipEmbed llm st si db question
      top_k history ht hi,
   fun llm q history => generate_answer_nil llm q history⟩

/-- C6 witness: a fresh empty system returns the sentinel fallback on a
concrete question and the generator returns the sentinel on empty
contexts. -/
theorem C6_empty_result_witness :
    FaissManager.search idNorm (FaissManager.empty 1) [(0 : ℚ)] 2 = .ok [] ∧
    QuerySystem.query idNorm idNorm (fun _ => [(0 : ℚ)]) (fun _ => [(0 : ℚ)])
      (fun _ => "unused") (FaissManager.empty 1) (FaissManager.empty 1) []
      "hello" 2 [] = .ok ⟨sentinel, [], 0⟩ ∧
    OfflineLLM.generate_answer (fun _ => "unused") "hello" [] [] = sentinel := by
  have ht : FaissManager.search idNorm (FaissManager.empty 1) [(0 : ℚ)] 2 =
      .ok [] := rfl
  have hi : enableMultimodal "hello" = true ∧
      0 < (FaissManager.empty 1).chunk_ids.length →
      ImageFaissManager.search idNorm (FaissManager.empty 1) [(0 : ℚ)] 2 =
        .ok [] := by
    intro h
    exact absurd h.2 (by decide)
  have hc := C6_empty_result_fallback idNorm idNorm (fun _ => [(0 : ℚ)])
    (fun _ => [(0 : ℚ)]) (FaissManager.empty 1) (FaissManager.empty 1) []
    "hello" 2 ht hi
  exact ⟨ht, hc.1 (fun _ => "unused") [], hc.2 (fun _ => "unused") "hello" []⟩

/-- The sources and confidence of a `query` response do not depend on the
generation function: only the answer text does, so no answer-based
(sentinel) suppression can occur. -/
theorem query_sources_confidence_independent (nrm nrmImg : NormModel)
    (textEmbed clipEmbed : String → Vec) (st si : FaissManager) (db : Db)
    (question : String) (top_k : ℕ) (history : List String)
    (llmA llmB : String → String) :
    (QuerySystem.query nrm nrmImg textEmbed clipEmbed llmA st si db question
        top_k history).map (fun o => (o.sources, o.confidence)) =
      (QuerySystem.query nrm nrmImg textEmbed clipEmbed llmB st si db question
        top_k history).map (fun o => (o.sources, o.confidence)) := by
  unfold QuerySystem.query
  cases h1 : FaissManager.search nrm st (textEmbed question) top_k with
  | error msg => simp [h1]
  | ok tr =>
    simp only [h1]
    cases h2 : (if enableMultimodal question = true ∧ 0 < si.chunk_ids.length then
        ImageFaissManager.search nrmImg si (clipEmbed question) top_k
      else .ok []) with
    | error msg => simp [h2]
    | ok ir =>
      simp only [h2]
      split_ifs <;> rfl

/-- C5 (amended): confidence is 0 — with the sentinel answer and empty
sources — whenever the combined result set is empty; and the engine performs
no sentinel-based suppression: the returned sources and confidence are
computed from retrieval alone, independent of the generated answer, so a
sentinel answer over non-empty results keeps its distance-based confidence
and its source list. -/
theorem C5_sentinel_no_suppression (nrm nrmImg : NormModel)
    (textEmbed clipEmbed : String → Vec) (st si : FaissManager) (db : Db)
    (question : String) (top_k : ℕ) (history : List String)
    (llmA llmB : String → String) :
    ((FaissManager.search nrm st (textEmbed question) top_k = .ok []) →
     (enableMultimodal question = true ∧ 0 < si.chunk_ids.length →
       ImageFaissManager.search nrmImg si (clipEmbed question) top_k = .ok []) →
     QuerySystem.query nrm nrmImg textEmbed clipEmbed llmA st si db question
       top_k history = .ok ⟨sentinel, [], 0⟩) ∧
    (QuerySystem.query nrm nrmImg textEmbed clipEmbed llmA st si db question
        top_k history).map (fun o => (o.sources, o.confidence)) =
      (QuerySystem.query nrm nrmImg textEmbed clipEmbed llmB st si db question
        top_k history).map (fun o => (o.sources, o.confidence)) :=
  ⟨fun ht hi =>
    query_of_empty_results nrm nrmImg textEmbed clipEmbed llmA st si db question
      top_k history ht hi,
   query_sources_confidence_independent nrm nrmImg textEmbed clipEmbed st si db
     question top_k history llmA llmB⟩

/-- The concrete text-manager state used by the sentinel counterexample:
one 2-dimensional vector at distance 0 from the constant query embedding. -/
def wTextC5 : FaissManager := ⟨2, ⟨2, [[1, 0]]⟩, ["c1"], {"c1"}⟩

/-- The metadata row resolving `"c1"` for the sentinel counterexample. -/
def wDbC5 : Db := [⟨"c1", "alpha text", "pdf", "f.pdf", some 3, none⟩]

/-- C5 counterexample: a query whose generated answer is exactly the
sentinel but whose combined result set is non-empty returns the distance-
based confidence 100 and a non-empty sources list — the claimed zeroing and
emptying do not happen. -/
theorem C5_sentinel_counterexample :
    QuerySystem.query idNorm idNorm (fun _ => [(1 : ℚ), 0])
      (fun _ => [(1 : ℚ), 0]) (fun _ => sentinel) wTextC5
      (FaissManager.empty 2) wDbC5 "whatever" 2 [] =
      .ok ⟨sentinel, [⟨"pdf", "f.pdf", 100, some 3, none⟩], 100⟩ ∧
    (100 : ℚ) ≠ 0 ∧
    ([(⟨"pdf", "f.pdf", 100, some 3, none⟩ : Source)]) ≠ [] := by
  refine ⟨?_, by norm_num, by simp⟩
  have hsearch : FaissManager.search idNorm wTextC5 [(1 : ℚ), 0] 2 =
      .ok [⟨"c1", 0⟩] := by
    norm_num [FaissManager.search, IndexFlatL2.search, sqL2, sortLE, insertLE,
      List.enum, idNorm, wTextC5]
    decide
  have hconf : confidenceOf [(0 : ℚ)] = 100 := by
    norm_num [confidenceOf, pyRound2, roundHalfEven]
  have hgate : ¬(enableMultimodal "whatever" = true ∧
      0 < (FaissManager.empty 2).chunk_ids.length) := by
    intro h
    exact absurd h.2 (by decide)
  unfold QuerySystem.query
  simp only [hsearch, if_neg hgate]
  norm_num [QuerySystem.rankCandidates, sortLE, insertLE, fetchChunksFromDb,
    MetadataStore.get_chunk, wDbC5, buildContext, dedupSources,
    OfflineLLM.generate_answer, hconf]
  decide

/-- C5 witness: the amended theorem evaluated on a concrete empty system
(first half) and on two concrete generation functions (second half). -/
theorem C5_sentinel_witness :
    QuerySystem.query idNorm idNorm (fun _ => [(0 : ℚ)]) (fun _ => [(0 : ℚ)])
      (fun _ => "a") (FaissManager.empty 1) (FaissManager.empty 1) []
      "nothing" 3 [] = .ok ⟨sentinel, [], 0⟩ ∧
    (QuerySystem.query idNorm idNorm (fun _ => [(1 : ℚ), 0])
        (fun _ => [(1 : ℚ), 0]) (fun _ => sentinel) wTextC5
        (FaissManager.empty 2) wDbC5 "whatever" 2 []).map
      (fun o => (o.sources, o.confidence)) =
      (QuerySystem.query idNorm idNorm (fun _ => [(1 : ℚ), 0])
        (fun _ => [(1 : ℚ), 0]) (fun _ => "another answer") wTextC5
        (FaissManager.empty 2) wDbC5 "whatever" 2 []).map
      (fun o => (o.sources, o.confidence)) := by
  have ht : FaissManager.search idNorm (FaissManager.empty 1) [(0 : ℚ)] 3 =
      .ok [] := rfl
  have hi : enableMultimodal "nothing" = true ∧
      0 < (FaissManager.empty 1).chunk_ids.length →
      ImageFaissManager.search idNorm (FaissManager.empty 1) [(0 : ℚ)] 3 =
        .ok [] := by
    intro h
    exact absurd h.2 (by decide)
  exact ⟨(C5_sentinel_no_suppression idNorm idNorm (fun _ => [(0 : ℚ)])
      (fun _ => [(0 : ℚ)]) (FaissManager.empty 1) (FaissManager.empty 1) []
      "nothing" 3 [] (fun _ => "a") (fun _ => "b")).1 ht hi,
    (C5_sentinel_no_suppression idNorm idNorm (fun _ => [(1 : ℚ), 0])
      (fun _ => [(1 : ℚ), 0]) wTextC5 (FaissManager.empty 2) wDbC5 "whatever" 2
      [] (fun _ => sentinel) (fun _ => "another answer")).2⟩

/-- The dedup dict only grows: accumulated entries survive. -/
theorem dedupSourcesAux_mono (conf : ℚ) (chunks : List Chunk)
    (acc : List Source) :
    ∀ s ∈ acc, s ∈ dedupSourcesAux conf acc chunks := by
  induction chunks generalizing acc with
  | nil => intro s hs; exact hs
  | cons c rest ih =>
    intro s hs
    unfold dedupSourcesAux
    split_ifs with hany
    · exact ih acc s hs
    · exact ih (acc ++ [mkSource conf c]) s (List.mem_append_left _ hs)

/-- The dedup dict keeps its `source_file` keys pairwise distinct. -/
theorem dedupSourcesAux_nodup (conf : ℚ) (chunks : List Chunk)
    (acc : List Source) (hacc : (acc.map Source.source_file).Nodup) :
    ((dedupSourcesAux conf acc chunks).map Source.source_file).Nodup := by
  induction chunks generalizing acc with
  | nil => exact hacc
  | cons c rest ih =>
    unfold dedupSourcesAux
    split_ifs with hany
    · exact ih acc hacc
    · refine ih (acc ++ [mkSource conf c]) ?_
      simp only [List.map_append, List.map_cons, List.map_nil]
      rw [List.nodup_append]
      refine ⟨hacc, List.nodup_singleton _, ?_⟩
      intro x hx hx2
      simp only [List.mem_singleton] at hx2
      obtain ⟨t, ht, hxt⟩ := List.mem_map.mp hx
      simp only [List.any_eq_true, beq_iff_eq, not_exists, not_and] at hany
      exact hany t ht (hxt.trans hx2)

/-- Every entry of the dedup dict is either pre-accumulated or built from
the first chunk carrying its `source_file`. -/
theorem dedupSourcesAux_first (conf : ℚ) (chunks : List Chunk)
    (acc : List Source) :
    ∀ s ∈ dedupSourcesAux conf acc chunks,
      s ∈ acc ∨
      ((∀ t ∈ acc, t.source_file ≠ s.source_file) ∧
       ∃ c, chunks.find? (fun c' => c'.source_file == s.source_file) = some c ∧
         s = mkSource conf c) := by
  induction chunks generalizing acc with
  | nil => intro s hs; exact .inl hs
  | cons c rest ih =>
    intro s hs
    unfold dedupSourcesAux at hs
    split_ifs at hs with hany
    · rcases ih acc s hs with hl | ⟨hne, c', hfind, hmk⟩
      · exact .inl hl
      · refine .inr ⟨hne, c', ?_, hmk⟩
        have hcs : (c.source_file == s.source_file) = false := by
          simp only [List.any_eq_true, beq_iff_eq] at hany
          obtain ⟨t, ht, htc⟩ := hany
          simp only [beq_eq_false_iff_ne, ne_eq]
          intro hcsf
          exact hne t ht (htc.trans hcsf)
        simp only [List.find?, hcs]
        exact hfind
    · rcases ih (acc ++ [mkSource conf c]) s hs with hl | ⟨hne, c', hfind, hmk⟩
      · rcases List.mem_append.mp hl with hacc | hnew
        · exact .inl hacc
        · rw [List.mem_singleton] at hnew
          refine .inr ⟨?_, c, ?_, hnew⟩
          · intro t ht
            simp only [List.any_eq_true, beq_iff_eq, not_exists, not_and] at hany
            rw [hnew]
            exact hany t ht
          · have hcs : (c.source_file == s.source_file) = true := by
              rw [hnew]
              exact beq_self_eq_true _
            simp only [List.find?, hcs]
      · refine .inr ⟨fun t ht => hne t (List.mem_append_left _ ht), c', ?_, hmk⟩
        have hcs : (c.source_file == s.source_file) = false := by
          have := hne (mkSource conf c) (List.mem_append_right _ (List.mem_singleton_self _))
          simpa [mkSource, beq_eq_false_iff_ne] using this
        simp only [List.find?, hcs]
        exact hfind

/-- Every chunk's `source_file` is represented in the dedup dict. -/
theorem dedupSourcesAux_covers (conf : ℚ) (chunks : List Chunk)
    (acc : List Source) :
    ∀ c ∈ chunks, ∃ s ∈ dedupSourcesAux conf acc chunks,
      s.source_file = c.source_file := by
  induction chunks generalizing acc with
  | nil => simp
  | cons c rest ih =>
    intro c' hc'
    unfold dedupSourcesAux
    rcases List.mem_cons.mp hc' with rfl | hmem
    · split_ifs with hany
      · simp only [List.any_eq_true, beq_iff_eq] at hany
        obtain ⟨t, ht, htc⟩ := hany
        exact ⟨t, dedupSourcesAux_mono conf rest acc t ht, htc⟩
      · refine ⟨mkSource conf c', ?_, rfl⟩
        exact dedupSourcesAux_mono conf rest _ _
          (List.mem_append_right _ (List.mem_singleton_self _))
    · split_ifs with hany
      · exact ih acc c' hmem
      · exact ih (acc ++ [mkSource conf c]) c' hmem

/-- C7 (amended): the selected context list is exactly the first `top_k`
entries of the distance-ranked combined list, with no deduplication by chunk
id; the only deduplication in the response is of the `sources` list, keyed
by `source_file`, which keeps pairwise-distinct keys, builds every entry
from the first chunk carrying its `source_file`, and represents every
selected chunk's `source_file`. -/
theorem C7_selection_and_source_dedup (tr ir : List SearchResult) (k : ℕ)
    (chunks : List Chunk) (conf : ℚ) :
    QuerySystem.selectedChunkIds tr ir k =
      ((QuerySystem.rankCandidates tr ir).take k).map SearchResult.chunk_id ∧
    ((dedupSources chunks conf).map Source.source_file).Nodup ∧
    (∀ s ∈ dedupSources chunks conf,
      ∃ c, chunks.find? (fun c' => c'.source_file == s.source_file) = some c ∧
        s = mkSource conf c) ∧
    ∀ c ∈ chunks, ∃ s ∈ dedupSources chunks conf,
      s.source_file = c.source_file := by
  refine ⟨rfl, dedupSourcesAux_nodup conf chunks [] (by simp), ?_, ?_⟩
  · intro s hs
    rcases dedupSourcesAux_first conf chunks [] s hs with hl | ⟨_, c, hfind, hmk⟩
    · cases hl
    · exact ⟨c, hfind, hmk⟩
  · exact dedupSourcesAux_covers conf chunks []

/-- The single metadata row used by the duplicate-selection
counterexample. -/
def wDbC7 : Db := [⟨"dup", "some text", "pdf", "f.pdf", none, none⟩]

/-- C7 counterexample: a combined candidate list carrying the same chunk id
at two ranks yields a selected context list — and a resolved chunk list —
containing that id twice; the dedup-by-chunk-id walk the claim describes
does not exist. -/
theorem C7_duplicate_selection_counterexample :
    QuerySystem.selectedChunkIds [⟨"dup", 1⟩] [⟨"dup", 2⟩] 2 = ["dup", "dup"] ∧
    (fetchChunksFromDb wDbC7 ["dup", "dup"]).map Chunk.chunk_id =
      ["dup", "dup"] ∧
    ¬ ((fetchChunksFromDb wDbC7 ["dup", "dup"]).map Chunk.chunk_id).Nodup := by
  refine ⟨?_, by decide, by decide⟩
  norm_num [QuerySystem.selectedChunkIds, QuerySystem.rankCandidates, sortLE,
    insertLE]

/-- Two chunks of one source file, used to evaluate the source dedup. -/
def wC7a : Chunk := ⟨"x1", "t1", "pdf", "f.pdf", none, none⟩

/-- Second chunk of the same source file. -/
def wC7b : Chunk := ⟨"x2", "t2", "pdf", "f.pdf", none, none⟩

/-- C7 witness: the amended dedup facts evaluated on two chunks sharing one
source file. -/
theorem C7_selection_witness :
    ((dedupSources [wC7a, wC7b] 7).map Source.source_file).Nodup ∧
    (∃ c, [wC7a, wC7b].find?
        (fun c' => c'.source_file == (mkSource 7 wC7a).source_file) = some c ∧
      mkSource 7 wC7a = mkSource 7 c) ∧
    ∃ s ∈ dedupSources [wC7a, wC7b] 7, s.source_file = wC7b.source_file := by
  have h := C7_selection_and_source_dedup [] [] 0 [wC7a, wC7b] 7
  exact ⟨h.2.1, h.2.2.1 (mkSource 7 wC7a) (by decide),
    h.2.2.2 wC7b (by decide)⟩

/-- Splitting a character stream into whitespace-separated words
(Python `str.split()` with no argument). -/
def wordsAux : List Char → List Char → List (List Char)
  | [], acc => if acc.isEmpty then [] else [acc.reverse]
  | ch :: cs, acc =>
    if wsChar ch then
      if acc.isEmpty then wordsAux cs [] else acc.reverse :: wordsAux cs []
    else wordsAux cs (ch :: acc)

/-- The words of a question, Python `question.split()`. -/
def pyWords (s : String) : List String := (wordsAux s.data []).map fun w => ⟨w⟩

/-- Modelled from the spec (§4.3 step 4, absent from the code): the lexical
overlap score of a candidate — the count of question words occurring as
literal case-insensitive substrings of the chunk text resolved through the
metadata store, 0 for unresolved ids. -/
def specLexScore (db : Db) (question : String) (cid : String) : ℕ :=
  match MetadataStore.get_chunk db cid with
  | none => 0
  | some c => ((pyWords question).filter fun w => strContainsSub c.text w).length

/-- Modelled from the spec: the composite descending key
`(lexical_score, -distance)` as a may-come-before relation. -/
def specKeyLE (db : Db) (question : String) (a b : SearchResult) : Bool :=
  specLexScore db question b.chunk_id < specLexScore db question a.chunk_id ||
  (specLexScore db question a.chunk_id == specLexScore db question b.chunk_id &&
    a.distance ≤ b.distance)

/-- Modelled from the spec: ranking of the concatenated candidate list by
the composite key, descending. -/
def specRankCandidates (db : Db) (question : String)
    (text_results image_results : List SearchResult) : List SearchResult :=
  sortLE (specKeyLE db question) (text_results ++ image_results)

/-- C4 (amended): the engine orders the concatenated text+image candidate
list by raw distance ascending only (a stable sort of the concatenation);
no lexical score enters the key, so a candidate containing every question
word is not promoted over a lower-distance candidate. -/
theorem C4_rank_by_distance_only (tr ir : List SearchResult) :
    (QuerySystem.rankCandidates tr ir).Perm (tr ++ ir) ∧
    (QuerySystem.rankCandidates tr ir).Pairwise
      fun a b => a.distance ≤ b.distance := by
  constructor
  · exact sortLE_perm _ _
  · have htrans : ∀ a b c : SearchResult,
        decide (a.distance ≤ b.distance) = true →
        decide (b.distance ≤ c.distance) = true →
        decide (a.distance ≤ c.distance) = true := by
      intro a b c hab hbc
      simp only [decide_eq_true_eq] at *
      exact le_trans hab hbc
    have htot : ∀ a b : SearchResult,
        decide (a.distance ≤ b.distance) = true ∨
        decide (b.distance ≤ a.distance) = true := by
      intro a b
      simp only [decide_eq_true_eq]
      exact le_total _ _
    have h := sortLE_pairwise htrans htot (tr ++ ir)
    unfold QuerySystem.rankCandidates
    refine h.imp ?_
    intro a b hab
    simpa using hab

/-- Metadata rows for the keyword-tie-break counterexample: only `"cB"`
contains both words of the question. -/
def wDbC4 : Db :=
  [⟨"cA", "gamma delta", "pdf", "a.pdf", none, none⟩,
   ⟨"cB", "alpha beta here", "pdf", "b.pdf", none, none⟩]

/-- C4 counterexample: with question `"alpha beta"`, candidate `"cB"`
literally contains every question word (lexical score 2 versus 0) yet the
engine ranks the smaller-distance candidate `"cA"` first; the spec-modelled
composite ranking would have put `"cB"` first. -/
theorem C4_keyword_counterexample :
    QuerySystem.rankCandidates [⟨"cA", 1⟩, ⟨"cB", 2⟩] [] =
      [⟨"cA", 1⟩, ⟨"cB", 2⟩] ∧
    (pyWords "alpha beta").all
      (fun w => strContainsSub "alpha beta here" w) = true ∧
    specLexScore wDbC4 "alpha beta" "cB" = 2 ∧
    specLexScore wDbC4 "alpha beta" "cA" = 0 ∧
    specRankCandidates wDbC4 "alpha beta" [⟨"cA", 1⟩, ⟨"cB", 2⟩] [] =
      [⟨"cB", 2⟩, ⟨"cA", 1⟩] ∧
    (QuerySystem.rankCandidates [⟨"cA", 1⟩, ⟨"cB", 2⟩] []).head? =
      some ⟨"cA", 1⟩ := by
  refine ⟨?_, by decide, by decide, by decide, ?_, ?_⟩
  · norm_num [QuerySystem.rankCandidates, sortLE, insertLE]
  · norm_num [specRankCandidates, specKeyLE, sortLE, insertLE]
    decide
  · norm_num [QuerySystem.rankCandidates, sortLE, insertLE]
